import Mathlib

/-
  Verification of the streaming CSV reader in creme/stream/csv.py.

  The module has two parts:
  * class DictReader (csv.py lines 9-28): an overlay on csv.DictReader whose
    __next__ reads the header on the first pull, then reads physical rows,
    applying Bernoulli sampling (one uniform draw per examined row when the
    fraction is below 1), and returns dict(zip(fieldnames, row)).
  * iter_csv (csv.py lines 31-145): saves the global csv field-size limit,
    optionally overrides it, iterates the DictReader, applies per-record
    drop / convert / parse-dates / target-split, yields (features, target)
    pairs, and finally closes the stream and restores the limit.

  The embedding below models Python dicts as association lists with unique
  first-occurrence lookup (matching dict semantics for the operations used:
  item lookup, item assignment, del, pop-with-default, dict(zip(...))),
  values as an inductive `Val`, the random generator as a function from the
  draw index to a rational in [0,1), and the strptime collaborator as an
  explicit function parameter.  Exceptions become `Except CsvErr`; generator
  semantics become the `IterResult` record, which also logs every write made
  to the process-wide field-size limit and whether the stream was closed.
-/

namespace CremeCsv

/-- A CSV cell value: raw strings as read from the stream, plus results of
converters and of date parsing. -/
inductive Val where
  | vstr : String → Val
  | vnum : ℚ → Val
  | vdate : String → Val
deriving DecidableEq, Repr

/-- Exceptions the pipeline can raise: KeyError from `del x[i]` / `x[i]`,
an exception raised by a converter, and a strptime failure. -/
inductive CsvErr where
  | keyError : String → CsvErr
  | convError : String → CsvErr
  | parseError : String → CsvErr
deriving DecidableEq, Repr

/-- A record, as Python builds it: an insertion-ordered dict from field name
to value. -/
abbrev Raw := List (String × Val)

/-- Python `x[i]`: value at the first occurrence of the key, if present. -/
def lookupV : Raw → String → Option Val
  | [], _ => none
  | (k, v) :: rest, t => if k = t then some v else lookupV rest t

/-- Python `del x[i]`: remove the key's entry; `none` models the KeyError
raised when the key is absent. -/
def delKey : Raw → String → Option Raw
  | [], _ => none
  | (k, v) :: rest, t =>
    if k = t then some rest
    else
      match delKey rest t with
      | none => none
      | some r => some ((k, v) :: r)

/-- Python `x[i] = w`: update the entry in place if the key exists,
otherwise append it. -/
def setVal : Raw → String → Val → Raw
  | [], t, w => [(t, w)]
  | (k, v) :: rest, t, w =>
    if k = t then (k, w) :: rest else (k, v) :: setVal rest t w

/-- Python `x.pop(t, None)`: remove the entry and return its value, or
return the absent marker leaving the record unchanged. -/
def popKey : Raw → String → Raw × Option Val
  | [], _ => ([], none)
  | (k, v) :: rest, t =>
    if k = t then (rest, some v)
    else
      let r := popKey rest t
      ((k, v) :: r.1, r.2)

/-- Python `dict(pairs)`: fold item assignment over the pairs. -/
def dictOfPairs (ps : List (String × Val)) : Raw :=
  ps.foldl (fun acc p => setVal acc p.1 p.2) []

/-- csv.py line 28, `dict(zip(self.fieldnames, row))`: zip the header with
the raw values (truncating at the shorter) and build the record dict. -/
def dictZip (header : List String) (row : List String) : Raw :=
  dictOfPairs ((header.zip row).map fun p => (p.1, Val.vstr p.2))

/-- csv.py lines 24-27: the sampling skip loop of DictReader.__next__.
`row` is the candidate already read, `rows` the remaining physical rows and
`k` the index of the next random draw.  One uniform draw is made; while it
exceeds the fraction the candidate is discarded and the next row is read.
Returns the updated draw index and either the accepted row together with the
remaining stream, or `none` when the stream is exhausted inside the loop. -/
def skipLoop (f : ℚ) (rng : Nat → ℚ) :
    Nat → List String → List (List String) →
      Nat × Option (List String × List (List String))
  | k, row, [] =>
    if rng k > f then (k + 1, none) else (k + 1, some (row, []))
  | k, row, r :: rest =>
    if rng k > f then skipLoop f rng (k + 1) r rest
    else (k + 1, some (row, r :: rest))

/-- csv.py lines 17-28, with an explicit structural-termination fuel: the
sequence of rows accepted by repeated calls to DictReader.__next__, starting
at draw index `k`, together with the final draw index.  With fraction below
1 each pull reads a candidate row and runs the skip loop; otherwise every
row is accepted without consulting the generator.  Stream exhaustion
(StopIteration) ends the sequence normally.  Every iteration of the source
loop consumes at least one physical row, so any fuel of at least
`rows.length` yields the loop's exact behavior (`sampleRows` below passes
that bound). -/
def sampleRowsF (f : ℚ) (rng : Nat → ℚ) :
    Nat → Nat → List (List String) → List (List String) × Nat
  | _, k, [] => ([], k)
  | 0, k, _ => ([], k)
  | fuel + 1, k, row :: rest =>
    if f < 1 then
      match skipLoop f rng k row rest with
      | (k', none) => ([], k')
      | (k', some (row', rest')) =>
        let r := sampleRowsF f rng fuel k' rest'
        (row' :: r.1, r.2)
    else
      let r := sampleRowsF f rng fuel k rest
      (row :: r.1, r.2)

/-- The accepted rows and final draw index of one full reading session. -/
def sampleRows (f : ℚ) (rng : Nat → ℚ) (k : Nat)
    (rows : List (List String)) : List (List String) × Nat :=
  sampleRowsF f rng rows.length k rows

/-- The Raw Records emitted by the sampling reader for a given header. -/
def readerRecords (f : ℚ) (rng : Nat → ℚ) (header : List String)
    (rows : List (List String)) : List Raw :=
  ((sampleRows f rng 0 rows).1).map (dictZip header)

/-- The per-claim description of sampling, written from the spec for
comparison with `sampleRows`: each physical row in order receives one
uniform draw; the row is discarded when its draw exceeds the fraction and
accepted otherwise. -/
def acceptBySpec (f : ℚ) (rng : Nat → ℚ) :
    Nat → List (List String) → List (List String)
  | _, [] => []
  | k, r :: rs =>
    if rng k > f then acceptBySpec f rng (k + 1) rs
    else r :: acceptBySpec f rng (k + 1) rs

/-- The configuration of one iter_csv session (csv.py lines 31-32).
`drop = []` models both `drop=None` and an empty list, which the code
treats identically through the `if drop:` truthiness test. -/
structure Config where
  target_name : Option String
  converters : Option (List (String × (Val → Option Val)))
  parse_dates : Option (List (String × String))
  drop : List String
  fraction : ℚ

/-- csv.py lines 122-124: `for i in drop: del x[i]`; a missing key raises
KeyError and aborts. -/
def dropAll : List String → Raw → Except CsvErr Raw
  | [], x => .ok x
  | i :: ds, x =>
    match delKey x i with
    | none => .error (.keyError i)
    | some x' => dropAll ds x'

/-- csv.py lines 127-129: `for i, t in converters.items(): x[i] = t(x[i])`;
the lookup raises KeyError on a missing key and the converter itself may
raise. -/
def convertAll : List (String × (Val → Option Val)) → Raw → Except CsvErr Raw
  | [], x => .ok x
  | (i, t) :: cs, x =>
    match lookupV x i with
    | none => .error (.keyError i)
    | some v =>
      match t v with
      | none => .error (.convError i)
      | some w => convertAll cs (setVal x i w)

/-- csv.py lines 132-134: `x[i] = dt.datetime.strptime(x[i], fmt)`, with the
external strptime collaborator passed in as `sp` (`none` models a raised
parsing exception). -/
def parseAll (sp : Val → String → Option Val) :
    List (String × String) → Raw → Except CsvErr Raw
  | [], x => .ok x
  | (i, fmt) :: ps, x =>
    match lookupV x i with
    | none => .error (.keyError i)
    | some v =>
      match sp v fmt with
      | none => .error (.parseError i)
      | some w => parseAll sp ps (setVal x i w)

/-- csv.py lines 122-124 as a stage: the drop block guarded by `if drop:`. -/
def dropStage (cfg : Config) (x : Raw) : Except CsvErr Raw :=
  if cfg.drop.isEmpty then .ok x else dropAll cfg.drop x

/-- csv.py lines 127-129 as a stage: the convert block guarded by
`if converters is not None:`. -/
def convStage (cfg : Config) (x : Raw) : Except CsvErr Raw :=
  match cfg.converters with
  | none => .ok x
  | some cs => convertAll cs x

/-- csv.py lines 132-134 as a stage: the date-parsing block guarded by
`if parse_dates is not None:`. -/
def parseStage (cfg : Config) (sp : Val → String → Option Val) (x : Raw) :
    Except CsvErr Raw :=
  match cfg.parse_dates with
  | none => .ok x
  | some ps => parseAll sp ps x

/-- csv.py line 137, `y = x.pop(target_name, None)`: with no configured
target name the dict cannot contain the key `None`, so nothing is popped. -/
def splitTarget (cfg : Config) (x : Raw) : Raw × Option Val :=
  match cfg.target_name with
  | none => (x, none)
  | some t => popKey x t

/-- csv.py lines 122-139: the whole per-record body of the iteration, from
the accepted Raw Record to the yielded (features, target) pair.  The four
blocks run in sequence and the first raised exception aborts the record, so
each stage's error short-circuits the rest. -/
def transform (cfg : Config) (sp : Val → String → Option Val) (x : Raw) :
    Except CsvErr (Raw × Option Val) :=
  match dropStage cfg x with
  | .error e => .error e
  | .ok x1 =>
    match convStage cfg x1 with
    | .error e => .error e
    | .ok x2 =>
      match parseStage cfg sp x2 with
      | .error e => .error e
      | .ok x3 => .ok (splitTarget cfg x3)

/-- Generator semantics of the `for`-body: transform each accepted record in
order, collecting the yielded pairs; the first exception stops the iteration
and is recorded, and nothing past it is produced. -/
def runPipeline (cfg : Config) (sp : Val → String → Option Val) :
    List Raw → List (Raw × Option Val) × Option CsvErr
  | [] => ([], none)
  | x :: xs =>
    match transform cfg sp x with
    | .error e => ([], some e)
    | .ok p =>
      let r := runPipeline cfg sp xs
      (p :: r.1, r.2)

/-- Observable outcome of one whole iter_csv session: the pairs yielded, the
exception (if any) that ended the iteration, whether the stream was closed,
and every value written to the process-wide csv field-size limit, in order. -/
structure IterResult where
  pairs : List (Raw × Option Val)
  err : Option CsvErr
  closed : Bool
  limitWrites : List Nat
deriving DecidableEq, Repr

/-- csv.py lines 106-145: one iter_csv session over a stream whose first
line is the header.  `limit0` is the prior process-wide field-size limit
read at line 107; lines 108-109 write `fsl` over it when given; the `for`
loop yields transformed pairs; lines 141-145 close the stream and write the
saved limit back — but only when the loop ends without an exception, because
an exception propagates out of the generator before reaching them.  An empty
stream makes the header read exhaust the iterator, which is normal
termination with no pairs. -/
def iterCsv (cfg : Config) (sp : Val → String → Option Val) (rng : Nat → ℚ)
    (limit0 : Nat) (fsl : Option Nat) (file : List (List String)) :
    IterResult :=
  let setup : List Nat :=
    match fsl with
    | none => []
    | some v => [v]
  match file with
  | [] =>
    { pairs := [], err := none, closed := true, limitWrites := setup ++ [limit0] }
  | header :: rows =>
    let accepted := (sampleRows cfg.fraction rng 0 rows).1
    let rp := runPipeline cfg sp (accepted.map (dictZip header))
    { pairs := rp.1, err := rp.2, closed := rp.2.isNone,
      limitWrites := setup ++ (if rp.2.isNone then [limit0] else []) }

/-! ### Concrete instances used to exercise the definitions -/

/-- A strptime collaborator that accepts every value unchanged. -/
def spId : Val → String → Option Val := fun v _ => some v

/-- A generator whose every draw is 0, so every candidate row is accepted. -/
def rng0 : Nat → ℚ := fun _ => 0

/-- A generator whose first draw is 3/4 and later draws are 1/4: with
fraction 1/2 it rejects the first examined row and accepts the second. -/
def rngW : Nat → ℚ := fun n => if n = 0 then mkRat 3 4 else mkRat 1 4

/-- A converter in the style of `float`: parses the string "9.5" and raises
on everything else. -/
def convFloat : Val → Option Val := fun v =>
  match v with
  | .vstr s => if s = "9.5" then some (.vnum (mkRat 19 2)) else none
  | _ => none

/-- A session with no transforms configured and fraction 1. -/
def cfgTrivial : Config :=
  { target_name := none, converters := none, parse_dates := none,
    drop := [], fraction := 1 }

/-- A session that drops a field named "missing", absent from the header. -/
def cfgDrop : Config :=
  { target_name := none, converters := none, parse_dates := none,
    drop := ["missing"], fraction := 1 }

/-- A session that drops the field "b". -/
def cfgDropB : Config :=
  { target_name := none, converters := none, parse_dates := none,
    drop := ["b"], fraction := 1 }

/-- A session converting and extracting the target field "rating". -/
def cfgTarget : Config :=
  { target_name := some "rating",
    converters := some [("rating", convFloat)],
    parse_dates := none, drop := [], fraction := 1 }

/-- A session extracting the target field "rating", with no converters. -/
def cfgTargetPlain : Config :=
  { target_name := some "rating", converters := none, parse_dates := none,
    drop := [], fraction := 1 }

/-- A session that both drops and converts the field "rating". -/
def cfgDropConv : Config :=
  { target_name := none,
    converters := some [("rating", convFloat)],
    parse_dates := none, drop := ["rating"], fraction := 1 }

/-- A session with no transforms configured and fraction 1/2. -/
def cfgHalf : Config :=
  { target_name := none, converters := none, parse_dates := none,
    drop := [], fraction := mkRat 1 2 }

/-- A two-field record as the reader would build it. -/
def xRow : Raw := [("name", Val.vstr "Planet"), ("rating", Val.vstr "9.5")]

/-! ### Lemmas about the dict operations -/

theorem lookupV_eq_none_iff (x : Raw) (t : String) :
    lookupV x t = none ↔ t ∉ x.map Prod.fst := by
  induction x with
  | nil => simp [lookupV]
  | cons p rest ih =>
    obtain ⟨k, v⟩ := p
    by_cases hk : k = t
    · subst hk
      simp [lookupV]
    · simp [lookupV, hk, ih, Ne.symm hk]

theorem lookupV_isSome_iff (x : Raw) (t : String) :
    (lookupV x t).isSome ↔ t ∈ x.map Prod.fst := by
  cases h : lookupV x t with
  | none => simp [(lookupV_eq_none_iff x t).mp h]
  | some v =>
    have hm : t ∈ x.map Prod.fst := by
      by_contra hm
      rw [← lookupV_eq_none_iff] at hm
      rw [h] at hm
      cases hm
    simp [hm]

theorem delKey_keys_sublist (x : Raw) (i : String) (x' : Raw)
    (h : delKey x i = some x') :
    List.Sublist (x'.map Prod.fst) (x.map Prod.fst) := by
  induction x generalizing x' with
  | nil => simp [delKey] at h
  | cons p rest ih =>
    obtain ⟨k, v⟩ := p
    by_cases hk : k = i
    · simp [delKey, hk] at h
      subst h
      simp
    · simp only [delKey, hk, if_false] at h
      cases hd : delKey rest i with
      | none => rw [hd] at h; simp at h
      | some r =>
        rw [hd] at h
        simp at h
        subst h
        simpa using (ih r hd).cons₂ k

theorem lookupV_delKey_ne (x : Raw) (i t : String) (x' : Raw) (hne : i ≠ t)
    (h : delKey x i = some x') : lookupV x' t = lookupV x t := by
  induction x generalizing x' with
  | nil => simp [delKey] at h
  | cons p rest ih =>
    obtain ⟨k, v⟩ := p
    by_cases hk : k = i
    · subst hk
      simp [delKey] at h
      subst h
      simp [lookupV, hne]
    · simp only [delKey, hk, if_false] at h
      cases hd : delKey rest i with
      | none => rw [hd] at h; simp at h
      | some r =>
        rw [hd] at h
        simp at h
        subst h
        simp [lookupV, ih r hd]

theorem lookupV_delKey_self (x : Raw) (i : String) (x' : Raw)
    (hnd : (x.map Prod.fst).Nodup) (h : delKey x i = some x') :
    lookupV x' i = none := by
  induction x generalizing x' with
  | nil => simp [delKey] at h
  | cons p rest ih =>
    obtain ⟨k, v⟩ := p
    rw [List.map_cons, List.nodup_cons] at hnd
    by_cases hk : k = i
    · subst hk
      simp [delKey] at h
      subst h
      rw [lookupV_eq_none_iff]
      exact hnd.1
    · simp only [delKey, hk, if_false] at h
      cases hd : delKey rest i with
      | none => rw [hd] at h; simp at h
      | some r =>
        rw [hd] at h
        simp at h
        subst h
        simp [lookupV, hk, ih r hnd.2 hd]

theorem lookupV_setVal_self (x : Raw) (i : String) (w : Val) :
    lookupV (setVal x i w) i = some w := by
  induction x with
  | nil => simp [setVal, lookupV]
  | cons p rest ih =>
    obtain ⟨k, v⟩ := p
    by_cases hk : k = i
    · simp [setVal, hk, lookupV]
    · simp [setVal, hk, lookupV, ih]

theorem lookupV_setVal_ne (x : Raw) (i t : String) (w : Val) (hne : t ≠ i) :
    lookupV (setVal x i w) t = lookupV x t := by
  induction x with
  | nil => simp [setVal, lookupV, Ne.symm hne]
  | cons p rest ih =>
    obtain ⟨k, v⟩ := p
    by_cases hk : k = i
    · subst hk
      simp [setVal, lookupV, Ne.symm hne]
    · by_cases ht : k = t
      · subst ht
        simp [setVal, hk, lookupV]
      · simp [setVal, hk, lookupV, ht, ih]

theorem setVal_keys_of_mem (x : Raw) (i : String) (w : Val)
    (h : lookupV x i ≠ none) :
    (setVal x i w).map Prod.fst = x.map Prod.fst := by
  induction x with
  | nil => simp [lookupV] at h
  | cons p rest ih =>
    obtain ⟨k, v⟩ := p
    by_cases hk : k = i
    · simp [setVal, hk]
    · simp only [lookupV, hk, if_false] at h
      simp [setVal, hk, ih h]

theorem popKey_of_absent (x : Raw) (t : String) (h : lookupV x t = none) :
    popKey x t = (x, none) := by
  induction x with
  | nil => simp [popKey]
  | cons p rest ih =>
    obtain ⟨k, v⟩ := p
    by_cases hk : k = t
    · simp [lookupV, hk] at h
    · simp only [lookupV, hk, if_false] at h
      simp [popKey, hk, ih h]

theorem popKey_snd_of_mem (x : Raw) (t : String) (v : Val)
    (h : lookupV x t = some v) : (popKey x t).2 = some v := by
  induction x with
  | nil => simp [lookupV] at h
  | cons p rest ih =>
    obtain ⟨k, w⟩ := p
    by_cases hk : k = t
    · simp [lookupV, hk] at h
      simp [popKey, hk, h]
    · simp only [lookupV, hk, if_false] at h
      simp [popKey, hk, ih h]

theorem lookupV_popKey_self (x : Raw) (t : String)
    (hnd : (x.map Prod.fst).Nodup) : lookupV (popKey x t).1 t = none := by
  induction x with
  | nil => simp [popKey, lookupV]
  | cons p rest ih =>
    obtain ⟨k, v⟩ := p
    rw [List.map_cons, List.nodup_cons] at hnd
    by_cases hk : k = t
    · subst hk
      simp [popKey]
      rw [lookupV_eq_none_iff]
      exact hnd.1
    · simp [popKey, hk, lookupV, ih hnd.2]

/-! ### Lemmas about the pipeline stages -/

theorem dropAll_keys_sublist (ds : List String) (x x' : Raw)
    (h : dropAll ds x = .ok x') :
    List.Sublist (x'.map Prod.fst) (x.map Prod.fst) := by
  induction ds generalizing x with
  | nil =>
    simp [dropAll] at h
    subst h
    exact List.Sublist.refl _
  | cons i ds ih =>
    cases hd : delKey x i with
    | none => simp [dropAll, hd] at h
    | some x1 =>
      simp only [dropAll, hd] at h
      exact (ih x1 h).trans (delKey_keys_sublist x i x1 hd)

theorem dropAll_lookup_ne (ds : List String) (x x' : Raw) (t : String)
    (ht : t ∉ ds) (h : dropAll ds x = .ok x') :
    lookupV x' t = lookupV x t := by
  induction ds generalizing x with
  | nil =>
    simp [dropAll] at h
    subst h
    rfl
  | cons i ds ih =>
    rw [List.mem_cons] at ht
    push_neg at ht
    cases hd : delKey x i with
    | none => simp [dropAll, hd] at h
    | some x1 =>
      simp only [dropAll, hd] at h
      rw [ih x1 ht.2 h]
      exact lookupV_delKey_ne x i t x1 (Ne.symm ht.1) hd

theorem dropAll_lookup_none (ds : List String) (x x' : Raw) (i : String)
    (hnd : (x.map Prod.fst).Nodup) (hi : i ∈ ds)
    (h : dropAll ds x = .ok x') : lookupV x' i = none := by
  induction ds generalizing x with
  | nil => cases hi
  | cons j ds ih =>
    cases hd : delKey x j with
    | none => simp [dropAll, hd] at h
    | some x1 =>
      simp only [dropAll, hd] at h
      have hnd1 : (x1.map Prod.fst).Nodup :=
        (delKey_keys_sublist x j x1 hd).nodup hnd
      rcases List.mem_cons.mp hi with hij | hmem
      · subst hij
        have hx1 : lookupV x1 i = none := lookupV_delKey_self x i x1 hnd hd
        rw [lookupV_eq_none_iff] at hx1 ⊢
        intro hc
        exact hx1 ((dropAll_keys_sublist ds x1 x' h).subset hc)
      · exact ih x1 hnd1 hmem h

theorem convertAll_keys (cs : List (String × (Val → Option Val))) (x x' : Raw)
    (h : convertAll cs x = .ok x') : x'.map Prod.fst = x.map Prod.fst := by
  induction cs generalizing x with
  | nil =>
    simp [convertAll] at h
    subst h
    rfl
  | cons c cs ih =>
    obtain ⟨i, ti⟩ := c
    cases hl : lookupV x i with
    | none => simp [convertAll, hl] at h
    | some v =>
      cases hc : ti v with
      | none => simp [convertAll, hl, hc] at h
      | some w =>
        simp only [convertAll, hl, hc] at h
        rw [ih (setVal x i w) h]
        exact setVal_keys_of_mem x i w (by rw [hl]; simp)

theorem convertAll_lookup_ne (cs : List (String × (Val → Option Val)))
    (x x' : Raw) (t : String) (ht : t ∉ cs.map Prod.fst)
    (h : convertAll cs x = .ok x') : lookupV x' t = lookupV x t := by
  induction cs generalizing x with
  | nil =>
    simp [convertAll] at h
    subst h
    rfl
  | cons c cs ih =>
    obtain ⟨i, ti⟩ := c
    rw [List.map_cons, List.mem_cons] at ht
    push_neg at ht
    cases hl : lookupV x i with
    | none => simp [convertAll, hl] at h
    | some v =>
      cases hc : ti v with
      | none => simp [convertAll, hl, hc] at h
      | some w =>
        simp only [convertAll, hl, hc] at h
        rw [ih (setVal x i w) ht.2 h]
        exact lookupV_setVal_ne x i t w ht.1

theorem convertAll_target (cs : List (String × (Val → Option Val)))
    (x x' : Raw) (t : String) (cnv : Val → Option Val) (v : Val)
    (hmem : (t, cnv) ∈ cs) (hnd : (cs.map Prod.fst).Nodup)
    (hv : lookupV x t = some v) (h : convertAll cs x = .ok x') :
    ∃ w, cnv v = some w ∧ lookupV x' t = some w := by
  induction cs generalizing x v with
  | nil => cases hmem
  | cons c cs ih =>
    obtain ⟨i, ti⟩ := c
    rw [List.map_cons, List.nodup_cons] at hnd
    rcases List.mem_cons.mp hmem with hhd | htl
    · have hit : i = t := by
        have := congrArg Prod.fst hhd
        simpa using this.symm
      have hti : ti = cnv := by
        have := congrArg Prod.snd hhd
        simpa using this.symm
      subst hit
      subst hti
      cases hc : ti v with
      | none => simp [convertAll, hv, hc] at h
      | some w =>
        simp only [convertAll, hv, hc] at h
        refine ⟨w, rfl, ?_⟩
        rw [convertAll_lookup_ne cs (setVal x i w) x' i hnd.1 h]
        exact lookupV_setVal_self x i w
    · have hit : i ≠ t := by
        intro hit
        subst hit
        exact hnd.1 (List.mem_map.mpr ⟨(i, cnv), htl, rfl⟩)
      cases hl : lookupV x i with
      | none => simp [convertAll, hl] at h
      | some u =>
        cases hc : ti u with
        | none => simp [convertAll, hl, hc] at h
        | some u' =>
          simp only [convertAll, hl, hc] at h
          have hv1 : lookupV (setVal x i u') t = some v := by
            rw [lookupV_setVal_ne x i t u' (Ne.symm hit)]
            exact hv
          exact ih (setVal x i u') v htl hnd.2 hv1 h

theorem convertAll_append (l1 l2 : List (String × (Val → Option Val)))
    (x : Raw) :
    convertAll (l1 ++ l2) x =
      match convertAll l1 x with
      | .error e => .error e
      | .ok y => convertAll l2 y := by
  induction l1 generalizing x with
  | nil => simp [convertAll]
  | cons c cs ih =>
    obtain ⟨i, ti⟩ := c
    rw [List.cons_append]
    cases hl : lookupV x i with
    | none => simp [convertAll, hl]
    | some v =>
      cases hc : ti v with
      | none => simp [convertAll, hl, hc]
      | some w => simp [convertAll, hl, hc, ih (setVal x i w)]

theorem parseAll_keys (sp : Val → String → Option Val)
    (ps : List (String × String)) (x x' : Raw)
    (h : parseAll sp ps x = .ok x') : x'.map Prod.fst = x.map Prod.fst := by
  induction ps generalizing x with
  | nil =>
    simp [parseAll] at h
    subst h
    rfl
  | cons c ps ih =>
    obtain ⟨i, fmt⟩ := c
    cases hl : lookupV x i with
    | none => simp [parseAll, hl] at h
    | some v =>
      cases hc : sp v fmt with
      | none => simp [parseAll, hl, hc] at h
      | some w =>
        simp only [parseAll, hl, hc] at h
        rw [ih (setVal x i w) h]
        exact setVal_keys_of_mem x i w (by rw [hl]; simp)

theorem parseAll_lookup_ne (sp : Val → String → Option Val)
    (ps : List (String × String)) (x x' : Raw) (t : String)
    (ht : t ∉ ps.map Prod.fst) (h : parseAll sp ps x = .ok x') :
    lookupV x' t = lookupV x t := by
  induction ps generalizing x with
  | nil =>
    simp [parseAll] at h
    subst h
    rfl
  | cons c ps ih =>
    obtain ⟨i, fmt⟩ := c
    rw [List.map_cons, List.mem_cons] at ht
    push_neg at ht
    cases hl : lookupV x i with
    | none => simp [parseAll, hl] at h
    | some v =>
      cases hc : sp v fmt with
      | none => simp [parseAll, hl, hc] at h
      | some w =>
        simp only [parseAll, hl, hc] at h
        rw [ih (setVal x i w) ht.2 h]
        exact lookupV_setVal_ne x i t w ht.1

theorem parseAll_append (sp : Val → String → Option Val)
    (l1 l2 : List (String × String)) (x : Raw) :
    parseAll sp (l1 ++ l2) x =
      match parseAll sp l1 x with
      | .error e => .error e
      | .ok y => parseAll sp l2 y := by
  induction l1 generalizing x with
  | nil => simp [parseAll]
  | cons c ps ih =>
    obtain ⟨i, fmt⟩ := c
    rw [List.cons_append]
    cases hl : lookupV x i with
    | none => simp [parseAll, hl]
    | some v =>
      cases hc : sp v fmt with
      | none => simp [parseAll, hl, hc]
      | some w => simp [parseAll, hl, hc, ih (setVal x i w)]

theorem runPipeline_append (cfg : Config) (sp : Val → String → Option Val)
    (l1 l2 : List Raw) :
    runPipeline cfg sp (l1 ++ l2) =
      match runPipeline cfg sp l1 with
      | (ps, some e) => (ps, some e)
      | (ps, none) =>
        let r := runPipeline cfg sp l2
        (ps ++ r.1, r.2) := by
  induction l1 with
  | nil => simp [runPipeline]
  | cons x xs ih =>
    rw [List.cons_append]
    cases ht : transform cfg sp x with
    | error e => simp [runPipeline, ht]
    | ok p =>
      simp only [runPipeline, ht, ih]
      rcases hr : runPipeline cfg sp xs with ⟨ps, err⟩
      cases err <;> simp

/-! ### Lemmas about the sampling reader -/

/-- The skip loop only consumes rows: its leftover stream is no longer
than its input stream. -/
theorem skipLoop_rest_length_le (f : ℚ) (rng : Nat → ℚ) :
    ∀ (rows : List (List String)) (k : Nat) (row row' : List String)
      (k' : Nat) (rest : List (List String)),
      skipLoop f rng k row rows = (k', some (row', rest)) →
      rest.length ≤ rows.length := by
  intro rows
  induction rows with
  | nil =>
    intro k row row' k' rest h
    simp only [skipLoop] at h
    split at h
    · simp at h
    · simp at h
      simp [h.2.2]
  | cons r rs ih =>
    intro k row row' k' rest h
    simp only [skipLoop] at h
    split at h
    · exact le_trans (ih _ _ _ _ _ h) (Nat.le_succ _)
    · simp at h
      simp [h.2.2]


theorem sampleRowsF_of_not_lt_one (f : ℚ) (rng : Nat → ℚ) (hf : ¬ f < 1) :
    ∀ (fuel : Nat) (k : Nat) (rows : List (List String)),
      rows.length ≤ fuel → sampleRowsF f rng fuel k rows = (rows, k) := by
  intro fuel
  induction fuel with
  | zero =>
    intro k rows hlen
    rw [List.length_eq_zero.mp (Nat.le_zero.mp hlen)]
    rfl
  | succ fuel ih =>
    intro k rows hlen
    cases rows with
    | nil => rfl
    | cons row rest =>
      simp only [sampleRowsF, hf, if_false]
      rw [ih k rest (Nat.le_of_succ_le_succ hlen)]

theorem skipLoop_none_spec (f : ℚ) (rng : Nat → ℚ) :
    ∀ (rows : List (List String)) (k : Nat) (row : List String) (k' : Nat),
      skipLoop f rng k row rows = (k', none) →
      acceptBySpec f rng k (row :: rows) = [] ∧ k' = k + rows.length + 1 := by
  intro rows
  induction rows with
  | nil =>
    intro k row k' h
    by_cases hgt : rng k > f
    · simp only [skipLoop, hgt, if_true] at h
      injection h with h1 h2
      constructor
      · rw [acceptBySpec, if_pos hgt]
        rfl
      · simp only [List.length_nil]
        omega
    · simp [skipLoop, hgt] at h
  | cons r rs ih =>
    intro k row k' h
    by_cases hgt : rng k > f
    · simp only [skipLoop, hgt, if_true] at h
      obtain ⟨h1, h2⟩ := ih (k + 1) r k' h
      constructor
      · rw [acceptBySpec, if_pos hgt]
        exact h1
      · simp only [List.length_cons]
        omega
    · simp [skipLoop, hgt] at h

theorem skipLoop_some_spec (f : ℚ) (rng : Nat → ℚ) :
    ∀ (rows : List (List String)) (k : Nat) (row row' : List String)
      (k' : Nat) (rest : List (List String)),
      skipLoop f rng k row rows = (k', some (row', rest)) →
      acceptBySpec f rng k (row :: rows) =
          row' :: acceptBySpec f rng k' rest
        ∧ k' + rest.length = k + rows.length + 1
        ∧ rest.length ≤ rows.length := by
  intro rows
  induction rows with
  | nil =>
    intro k row row' k' rest h
    by_cases hgt : rng k > f
    · simp [skipLoop, hgt] at h
    · simp only [skipLoop, hgt, if_false] at h
      injection h with h1 h2
      injection h2 with h2
      injection h2 with h3 h4
      subst h1
      subst h3
      subst h4
      refine ⟨?_, by simp, by simp⟩
      simp [acceptBySpec, hgt]
  | cons r rs ih =>
    intro k row row' k' rest h
    by_cases hgt : rng k > f
    · simp only [skipLoop, hgt, if_true] at h
      obtain ⟨h1, h2, h3⟩ := ih (k + 1) r row' k' rest h
      refine ⟨?_, ?_, ?_⟩
      · rw [acceptBySpec, if_pos hgt]
        exact h1
      · simp only [List.length_cons] at h2 ⊢
        omega
      · simp only [List.length_cons] at h3 ⊢
        omega
    · simp only [skipLoop, hgt, if_false] at h
      injection h with h1 h2
      injection h2 with h2
      injection h2 with h3 h4
      subst h1
      subst h3
      subst h4
      refine ⟨?_, by simp only [List.length_cons]; omega, by simp⟩
      simp [acceptBySpec, hgt]

theorem sampleRowsF_spec (f : ℚ) (rng : Nat → ℚ) (hf : f < 1) :
    ∀ (fuel : Nat) (k : Nat) (rows : List (List String)),
      rows.length ≤ fuel →
      sampleRowsF f rng fuel k rows =
        (acceptBySpec f rng k rows, k + rows.length) := by
  intro fuel
  induction fuel with
  | zero =>
    intro k rows hlen
    rw [List.length_eq_zero.mp (Nat.le_zero.mp hlen)]
    rfl
  | succ fuel ih =>
    intro k rows hlen
    cases rows with
    | nil => rfl
    | cons row rest =>
      simp only [sampleRowsF, hf, if_true]
      cases hs : skipLoop f rng k row rest with
      | mk k' res =>
        cases res with
        | none =>
          obtain ⟨h1, h2⟩ := skipLoop_none_spec f rng rest k row k' hs
          show (([] : List (List String)), k') =
            (acceptBySpec f rng k (row :: rest), k + (row :: rest).length)
          rw [h1]
          simp only [List.length_cons]
          rw [Prod.mk.injEq]
          exact ⟨rfl, by omega⟩
        | some pr =>
          obtain ⟨row', rest'⟩ := pr
          obtain ⟨h1, h2, h3⟩ :=
            skipLoop_some_spec f rng rest k row row' k' rest' hs
          have hlen' : rest'.length ≤ fuel :=
            le_trans h3 (Nat.le_of_succ_le_succ hlen)
          have hih := ih k' rest' hlen'
          show (row' :: (sampleRowsF f rng fuel k' rest').1,
              (sampleRowsF f rng fuel k' rest').2) =
            (acceptBySpec f rng k (row :: rest), k + (row :: rest).length)
          rw [hih, h1]
          simp only [List.length_cons]
          rw [Prod.mk.injEq]
          exact ⟨rfl, by omega⟩

theorem sampleRows_spec (f : ℚ) (rng : Nat → ℚ) (k : Nat)
    (rows : List (List String)) (hf : f < 1) :
    sampleRows f rng k rows = (acceptBySpec f rng k rows, k + rows.length) :=
  sampleRowsF_spec f rng hf rows.length k rows (Nat.le_refl _)

theorem sampleRows_of_one (rng : Nat → ℚ) (k : Nat)
    (rows : List (List String)) :
    sampleRows 1 rng k rows = (rows, k) :=
  sampleRowsF_of_not_lt_one 1 rng (lt_irrefl 1) rows.length k rows
    (Nat.le_refl _)

theorem skipLoop_some_sublist (f : ℚ) (rng : Nat → ℚ) :
    ∀ (rows : List (List String)) (k : Nat) (row row' : List String)
      (k' : Nat) (rest : List (List String)),
      skipLoop f rng k row rows = (k', some (row', rest)) →
      List.Sublist (row' :: rest) (row :: rows) := by
  intro rows
  induction rows with
  | nil =>
    intro k row row' k' rest h
    by_cases hgt : rng k > f
    · simp [skipLoop, hgt] at h
    · simp only [skipLoop, hgt, if_false] at h
      injection h with h1 h2
      injection h2 with h2
      injection h2 with h3 h4
      subst h3
      subst h4
      exact List.Sublist.refl _
  | cons r rs ih =>
    intro k row row' k' rest h
    by_cases hgt : rng k > f
    · simp only [skipLoop, hgt, if_true] at h
      exact (ih (k + 1) r row' k' rest h).cons row
    · simp only [skipLoop, hgt, if_false] at h
      injection h with h1 h2
      injection h2 with h2
      injection h2 with h3 h4
      subst h3
      subst h4
      exact List.Sublist.refl _

theorem sampleRowsF_sublist (f : ℚ) (rng : Nat → ℚ) :
    ∀ (fuel : Nat) (k : Nat) (rows : List (List String)),
      rows.length ≤ fuel →
      List.Sublist (sampleRowsF f rng fuel k rows).1 rows := by
  intro fuel
  induction fuel with
  | zero =>
    intro k rows hlen
    rw [List.length_eq_zero.mp (Nat.le_zero.mp hlen)]
    exact List.Sublist.refl _
  | succ fuel ih =>
    intro k rows hlen
    cases rows with
    | nil => exact List.Sublist.refl _
    | cons row rest =>
      by_cases hf : f < 1
      · simp only [sampleRowsF, hf, if_true]
        cases hs : skipLoop f rng k row rest with
        | mk k' res =>
          cases res with
          | none => simp
          | some pr =>
            obtain ⟨row', rest'⟩ := pr
            have hsub := skipLoop_some_sublist f rng rest k row row' k' rest' hs
            have hlen' : rest'.length ≤ fuel :=
              le_trans
                (skipLoop_rest_length_le f rng rest k row row' k' rest' hs)
                (Nat.le_of_succ_le_succ hlen)
            have hih := ih k' rest' hlen'
            show List.Sublist (row' :: (sampleRowsF f rng fuel k' rest').1)
              (row :: rest)
            exact ((hih.cons₂ row').trans hsub)
      · simp only [sampleRowsF, hf, if_false]
        exact (ih k rest (Nat.le_of_succ_le_succ hlen)).cons₂ row

theorem sampleRows_sublist (f : ℚ) (rng : Nat → ℚ) (k : Nat)
    (rows : List (List String)) :
    List.Sublist (sampleRows f rng k rows).1 rows :=
  sampleRowsF_sublist f rng rows.length k rows (Nat.le_refl _)

/-! ### Lemmas about dict(zip(header, row)) -/

theorem setVal_of_absent (x : Raw) (i : String) (w : Val)
    (h : lookupV x i = none) : setVal x i w = x ++ [(i, w)] := by
  induction x with
  | nil => simp [setVal]
  | cons p rest ih =>
    obtain ⟨k, v⟩ := p
    by_cases hk : k = i
    · simp [lookupV, hk] at h
    · simp only [lookupV, hk, if_false] at h
      simp [setVal, hk, ih h]

theorem foldl_setVal_of_nodup :
    ∀ (ps : List (String × Val)) (acc : Raw),
      ((acc ++ ps).map Prod.fst).Nodup →
      ps.foldl (fun a p => setVal a p.1 p.2) acc = acc ++ ps := by
  intro ps
  induction ps with
  | nil => intro acc _; simp
  | cons p ps ih =>
    obtain ⟨k, v⟩ := p
    intro acc hnd
    have hk : k ∉ acc.map Prod.fst := by
      rw [List.map_append, List.nodup_append] at hnd
      intro hc
      exact hnd.2.2 hc (by simp)
    have habs : lookupV acc k = none := (lookupV_eq_none_iff acc k).mpr hk
    simp only [List.foldl_cons]
    rw [setVal_of_absent acc k v habs]
    rw [ih (acc ++ [(k, v)]) (by simpa using hnd)]
    simp

theorem dictOfPairs_of_nodup (ps : List (String × Val))
    (hnd : (ps.map Prod.fst).Nodup) : dictOfPairs ps = ps := by
  have := foldl_setVal_of_nodup ps [] (by simpa using hnd)
  simpa [dictOfPairs] using this

theorem zip_keys_take (header row : List String) :
    ((header.zip row).map Prod.fst) =
      header.take (min header.length row.length) := by
  induction header generalizing row with
  | nil => simp
  | cons h hs ih =>
    cases row with
    | nil => simp
    | cons r rs =>
      simp only [List.zip_cons_cons, List.map_cons, List.length_cons]
      rw [ih rs]
      rw [Nat.succ_min_succ]
      rfl

theorem dictZip_of_nodup (header row : List String) (hnd : header.Nodup) :
    dictZip header row =
      (header.zip row).map (fun p => (p.1, Val.vstr p.2)) := by
  apply dictOfPairs_of_nodup
  have hkeys : (((header.zip row).map (fun p => (p.1, Val.vstr p.2))).map
      Prod.fst) = (header.zip row).map Prod.fst := by
    rw [List.map_map]
    rfl
  rw [hkeys, zip_keys_take]
  exact (List.take_sublist _ _).nodup hnd

theorem dictZip_keys (header row : List String) (hnd : header.Nodup) :
    (dictZip header row).map Prod.fst =
      header.take (min header.length row.length) := by
  rw [dictZip_of_nodup header row hnd, List.map_map]
  have : (Prod.fst ∘ fun p : String × String => (p.1, Val.vstr p.2)) =
      Prod.fst := rfl
  rw [this, zip_keys_take]

/-! ### Lemmas about the whole per-record transform and the session -/

theorem except_ok_bind {e1 a1 b1 : Type} (a : a1) (f : a1 → Except e1 b1) :
    (Except.ok a : Except e1 a1) >>= f = f a := rfl

theorem except_error_bind {e1 a1 b1 : Type} (e : e1)
    (f : a1 → Except e1 b1) :
    (Except.error e : Except e1 a1) >>= f = (Except.error e : Except e1 b1) :=
  rfl

theorem transform_eq_bind_chain (cfg : Config)
    (sp : Val → String → Option Val) (x : Raw) :
    transform cfg sp x =
      (dropStage cfg x >>= fun x1 =>
        convStage cfg x1 >>= fun x2 =>
          parseStage cfg sp x2 >>= fun x3 =>
            Except.ok (splitTarget cfg x3)) := by
  cases hd : dropStage cfg x with
  | error e => simp [transform, hd, except_error_bind]
  | ok x1 =>
    cases hc : convStage cfg x1 with
    | error e => simp [transform, hd, hc, except_ok_bind, except_error_bind]
    | ok x2 =>
      cases hp : parseStage cfg sp x2 with
      | error e =>
        simp [transform, hd, hc, hp, except_ok_bind, except_error_bind]
      | ok x3 => simp [transform, hd, hc, hp, except_ok_bind]

theorem dropStage_lookup_ne (cfg : Config) (x x1 : Raw) (t : String)
    (ht : t ∉ cfg.drop) (h : dropStage cfg x = .ok x1) :
    lookupV x1 t = lookupV x t := by
  by_cases he : cfg.drop.isEmpty
  · simp [dropStage, he] at h
    subst h
    rfl
  · simp only [dropStage, he, if_false] at h
    exact dropAll_lookup_ne cfg.drop x x1 t ht h

theorem dropStage_of_mem (cfg : Config) (x : Raw) (i : String)
    (hi : i ∈ cfg.drop) : dropStage cfg x = dropAll cfg.drop x := by
  have he : ¬ cfg.drop.isEmpty := by
    cases hd : cfg.drop with
    | nil => rw [hd] at hi; cases hi
    | cons a l => simp
  simp [dropStage, he]

theorem convStage_keys (cfg : Config) (x x' : Raw)
    (h : convStage cfg x = .ok x') : x'.map Prod.fst = x.map Prod.fst := by
  cases hc : cfg.converters with
  | none =>
    simp [convStage, hc] at h
    subst h
    rfl
  | some cs =>
    simp only [convStage, hc] at h
    exact convertAll_keys cs x x' h

theorem transform_no_stages (cfg : Config) (sp : Val → String → Option Val)
    (x : Raw) (h1 : cfg.drop = []) (h2 : cfg.converters = none)
    (h3 : cfg.parse_dates = none) :
    transform cfg sp x = .ok (splitTarget cfg x) := by
  simp [transform, dropStage, h1, convStage, h2, parseStage, h3]

theorem runPipeline_err_none (cfg : Config) (sp : Val → String → Option Val)
    (xs : List Raw) (h1 : cfg.drop = []) (h2 : cfg.converters = none)
    (h3 : cfg.parse_dates = none) : (runPipeline cfg sp xs).2 = none := by
  induction xs with
  | nil => rfl
  | cons x xs ih =>
    simp only [runPipeline, transform_no_stages cfg sp x h1 h2 h3]
    exact ih

theorem iterCsv_pairs_cons (cfg : Config) (sp : Val → String → Option Val)
    (rng : Nat → ℚ) (l : Nat) (fsl : Option Nat) (header : List String)
    (rows : List (List String)) :
    (iterCsv cfg sp rng l fsl (header :: rows)).pairs =
      (runPipeline cfg sp
        (((sampleRows cfg.fraction rng 0 rows).1).map (dictZip header))).1 :=
  rfl

theorem iterCsv_err_cons (cfg : Config) (sp : Val → String → Option Val)
    (rng : Nat → ℚ) (l : Nat) (fsl : Option Nat) (header : List String)
    (rows : List (List String)) :
    (iterCsv cfg sp rng l fsl (header :: rows)).err =
      (runPipeline cfg sp
        (((sampleRows cfg.fraction rng 0 rows).1).map (dictZip header))).2 :=
  rfl

theorem iterCsv_closed_eq (cfg : Config) (sp : Val → String → Option Val)
    (rng : Nat → ℚ) (l : Nat) (fsl : Option Nat)
    (file : List (List String)) :
    (iterCsv cfg sp rng l fsl file).closed =
      (iterCsv cfg sp rng l fsl file).err.isNone := by
  cases file with
  | nil => rfl
  | cons header rows => rfl

theorem iterCsv_limitWrites_eq (cfg : Config) (sp : Val → String → Option Val)
    (rng : Nat → ℚ) (l : Nat) (fsl : Option Nat)
    (file : List (List String)) :
    (iterCsv cfg sp rng l fsl file).limitWrites =
      (match fsl with | none => ([] : List Nat) | some v => [v]) ++
        (if (iterCsv cfg sp rng l fsl file).err.isNone then [l] else []) := by
  cases file with
  | nil => rfl
  | cons header rows => rfl

/-! ### Claim theorems -/

/-- Claim C3: when the fraction equals 1, for every input stream and every
generator, the sampling reader emits every data row exactly once, in input
order, zipped against the header, and the random generator is never
consulted (the draw index is unchanged across the whole session). -/
theorem claim3_fraction_one_identity (rng : Nat → ℚ) (k : Nat)
    (header : List String) (rows : List (List String)) :
    sampleRows 1 rng k rows = (rows, k)
    ∧ readerRecords 1 rng header rows = rows.map (dictZip header) := by
  refine ⟨sampleRows_of_one rng k rows, ?_⟩
  unfold readerRecords
  rw [sampleRows_of_one]

/-- Claim C4: when the fraction is below 1, each pull reads the next
physical row as candidate and draws; while the draw exceeds the fraction
the candidate is replaced by the next row; the accepted rows are exactly
the rows whose single associated uniform draw is at most the fraction,
taken in input order (the flattening of the skip loop), each consuming one
draw; accepted rows are returned zipped against the header; and stream
exhaustion — including at the header read — terminates the sequence
normally with no error. -/
theorem claim4_skip_loop_spec (f : ℚ) (rng : Nat → ℚ) (k : Nat)
    (header : List String) (rows : List (List String)) (cfg : Config)
    (sp : Val → String → Option Val) (l : Nat) (fsl : Option Nat)
    (hf : f < 1) :
    sampleRows f rng k rows = (acceptBySpec f rng k rows, k + rows.length)
    ∧ readerRecords f rng header rows =
        (acceptBySpec f rng 0 rows).map (dictZip header)
    ∧ (iterCsv cfg sp rng l fsl []).pairs = []
    ∧ (iterCsv cfg sp rng l fsl []).err = none := by
  refine ⟨sampleRows_spec f rng k rows hf, ?_, rfl, rfl⟩
  unfold readerRecords
  rw [sampleRows_spec f rng 0 rows hf]

/-- Witness for C4 at fraction 1/2 with a generator that rejects the first
examined row and accepts the second. -/
theorem claim4_witness :
    sampleRows (mkRat 1 2) rngW 0 [["x"], ["y"]] =
        (acceptBySpec (mkRat 1 2) rngW 0 [["x"], ["y"]], 0 + 2)
    ∧ readerRecords (mkRat 1 2) rngW ["a"] [["x"], ["y"]] =
        (acceptBySpec (mkRat 1 2) rngW 0 [["x"], ["y"]]).map (dictZip ["a"])
    ∧ (iterCsv cfgTrivial spId rngW 3 none []).pairs = []
    ∧ (iterCsv cfgTrivial spId rngW 3 none []).err = none :=
  claim4_skip_loop_spec (mkRat 1 2) rngW 0 ["a"] [["x"], ["y"]] cfgTrivial
    spId 3 none (by decide)

/-- Claim C5: for a fixed fraction below 1, a session's output is a
function of the draw sequence alone (two generators with pointwise-equal
draws give identical sessions, so a fixed seed reproduces the run), and the
rows accepted by the reader always form an order-preserving subsequence of
the input data rows; the emitted pairs are the transforms of exactly those
accepted rows. -/
theorem claim5_determinism_and_subsequence (cfg : Config)
    (sp : Val → String → Option Val) (rng1 rng2 : Nat → ℚ) (l : Nat)
    (fsl : Option Nat) (file : List (List String)) (k : Nat)
    (header : List String) (rows : List (List String))
    (hf : cfg.fraction < 1) (hr : ∀ n, rng1 n = rng2 n) :
    iterCsv cfg sp rng1 l fsl file = iterCsv cfg sp rng2 l fsl file
    ∧ List.Sublist (sampleRows cfg.fraction rng1 k rows).1 rows
    ∧ (iterCsv cfg sp rng1 l fsl (header :: rows)).pairs =
        (runPipeline cfg sp
          (((sampleRows cfg.fraction rng1 0 rows).1).map (dictZip header))).1
    := by
  have hrng : rng1 = rng2 := funext hr
  subst hrng
  exact ⟨rfl, sampleRows_sublist cfg.fraction rng1 k rows, rfl⟩

/-- Witness for C5 at fraction 1/2 on a three-line stream. -/
theorem claim5_witness :
    iterCsv cfgHalf spId rngW 3 none [["a"], ["1"], ["2"]] =
        iterCsv cfgHalf spId rngW 3 none [["a"], ["1"], ["2"]]
    ∧ List.Sublist (sampleRows cfgHalf.fraction rngW 0 [["1"], ["2"]]).1
        [["1"], ["2"]]
    ∧ (iterCsv cfgHalf spId rngW 3 none (["a"] :: [["1"], ["2"]])).pairs =
        (runPipeline cfgHalf spId
          (((sampleRows cfgHalf.fraction rngW 0 [["1"], ["2"]]).1).map
            (dictZip ["a"]))).1 :=
  claim5_determinism_and_subsequence cfgHalf spId rngW rngW 3 none
    [["a"], ["1"], ["2"]] 0 ["a"] [["1"], ["2"]] (by decide) (fun _ => rfl)

/-- Counterexample to C2: with header of length 2 and a data row of length
1, the reader raises no error at all: the row is emitted as a mapping with
the second header name missing, so a malformed row is neither rejected nor
completed. -/
theorem claim2_counterexample :
    (iterCsv cfgTrivial spId rng0 7 none [["a", "b"], ["1"]]).err = none
    ∧ (iterCsv cfgTrivial spId rng0 7 none [["a", "b"], ["1"]]).pairs =
        [([("a", Val.vstr "1")], none)] := by
  decide

/-- Claim C2 as amended: a row whose length differs from the header's is
not an error: the reader zips it against the header, so extra values are
silently dropped and a short row is emitted with keys only for the values
present (the key list is the header truncated to the shorter length); a
session with no transforms configured never fails, whatever the row
lengths. -/
theorem claim2_amended_zip_truncation (cfg : Config)
    (sp : Val → String → Option Val) (rng : Nat → ℚ) (l : Nat)
    (fsl : Option Nat) (header row : List String)
    (rows : List (List String)) (hn : header.Nodup) (h1 : cfg.drop = [])
    (h2 : cfg.converters = none) (h3 : cfg.parse_dates = none) :
    dictZip header row = (header.zip row).map (fun p => (p.1, Val.vstr p.2))
    ∧ (dictZip header row).map Prod.fst =
        header.take (min header.length row.length)
    ∧ (iterCsv cfg sp rng l fsl (header :: rows)).err = none := by
  refine ⟨dictZip_of_nodup header row hn, dictZip_keys header row hn, ?_⟩
  rw [iterCsv_err_cons]
  exact runPipeline_err_none cfg sp _ h1 h2 h3

/-- Witness for the amended C2 on a short row under a two-name header. -/
theorem claim2_witness :
    dictZip ["a", "b"] ["1"] =
        ((["a", "b"].zip ["1"]).map fun p => (p.1, Val.vstr p.2))
    ∧ (dictZip ["a", "b"] ["1"]).map Prod.fst =
        ["a", "b"].take (min (["a", "b"].length) (["1"].length))
    ∧ (iterCsv cfgTrivial spId rng0 7 none (["a", "b"] :: [["1"]])).err =
        none :=
  claim2_amended_zip_truncation cfgTrivial spId rng0 7 none ["a", "b"]
    ["1"] [["1"]] (by decide) rfl rfl rfl

/-- Counterexample to C6: when the drop list names a missing field, the
KeyError aborts the generator before the close and the limit restore run:
the session ends with the stream not closed and the only limit write the
initial override (99), never the saved prior value (5). -/
theorem claim6_counterexample :
    (iterCsv cfgDrop spId rng0 5 (some 99) [["a"], ["1"]]).err =
        some (.keyError "missing")
    ∧ (iterCsv cfgDrop spId rng0 5 (some 99) [["a"], ["1"]]).closed = false
    ∧ (iterCsv cfgDrop spId rng0 5 (some 99) [["a"], ["1"]]).limitWrites =
        [99] := by
  decide

/-- Claim C6 as amended: the stream close and the field-size-limit
restoration run exactly when the iteration ends without an exception
(normal exhaustion, including an empty stream); an exception mid-iteration
propagates out of the generator before either cleanup line, so the stream
stays open and the saved limit is never written back. -/
theorem claim6_amended_cleanup_on_normal_exhaustion (cfg : Config)
    (sp : Val → String → Option Val) (rng : Nat → ℚ) (l : Nat)
    (fsl : Option Nat) (file : List (List String)) :
    (iterCsv cfg sp rng l fsl file).closed =
        (iterCsv cfg sp rng l fsl file).err.isNone
    ∧ (iterCsv cfg sp rng l fsl file).limitWrites =
        (match fsl with | none => ([] : List Nat) | some v => [v]) ++
          (if (iterCsv cfg sp rng l fsl file).err.isNone then [l] else []) :=
  ⟨iterCsv_closed_eq cfg sp rng l fsl file,
   iterCsv_limitWrites_eq cfg sp rng l fsl file⟩

/-- Claim C10: with no field_size_limit argument, the session writes to the
process-wide limit only the value it read at session start — once, at
normal exhaustion — and writes nothing at all on an aborted run, so the
observable limit never changes. -/
theorem claim10_limit_untouched_when_none (cfg : Config)
    (sp : Val → String → Option Val) (rng : Nat → ℚ) (l : Nat)
    (file : List (List String)) :
    (iterCsv cfg sp rng l none file).limitWrites =
      (if (iterCsv cfg sp rng l none file).err.isNone then [l] else []) := by
  have h := iterCsv_limitWrites_eq cfg sp rng l none file
  simpa using h

/-- Claim C7: if the per-record transform raises on some accepted record
(for example, a drop of a missing field or a failing converter), the
exception surfaces as the session's error, the pairs already yielded for
the earlier accepted records remain the session's whole output, and nothing
after the failing record is produced. -/
theorem claim7_error_aborts_iteration (cfg : Config)
    (sp : Val → String → Option Val) (rng : Nat → ℚ) (l : Nat)
    (fsl : Option Nat) (header : List String) (rows : List (List String))
    (pre : List Raw) (x : Raw) (rest : List Raw)
    (ps : List (Raw × Option Val)) (e : CsvErr)
    (hacc : ((sampleRows cfg.fraction rng 0 rows).1).map (dictZip header) =
      pre ++ x :: rest)
    (hpre : runPipeline cfg sp pre = (ps, none))
    (hx : transform cfg sp x = .error e) :
    (iterCsv cfg sp rng l fsl (header :: rows)).pairs = ps
    ∧ (iterCsv cfg sp rng l fsl (header :: rows)).err = some e := by
  have hrun : runPipeline cfg sp (pre ++ x :: rest) = (ps, some e) := by
    rw [runPipeline_append, hpre]
    simp [runPipeline, hx]
  constructor
  · rw [iterCsv_pairs_cons, hacc, hrun]
  · rw [iterCsv_err_cons, hacc, hrun]

/-- Witness for C7: dropping "b" succeeds on the first record and raises on
the second (short) record, leaving exactly the first pair yielded. -/
theorem claim7_witness :
    (iterCsv cfgDropB spId rng0 4 none [["a", "b"], ["1", "2"], ["3"]]).pairs
        = [([("a", Val.vstr "1")], none)]
    ∧ (iterCsv cfgDropB spId rng0 4 none [["a", "b"], ["1", "2"], ["3"]]).err
        = some (.keyError "b") :=
  claim7_error_aborts_iteration cfgDropB spId rng0 4 none ["a", "b"]
    [["1", "2"], ["3"]] [[("a", Val.vstr "1"), ("b", Val.vstr "2")]]
    [("a", Val.vstr "3")] [] [([("a", Val.vstr "1")], none)]
    (.keyError "b") (by decide) (by decide) rfl

/-- Claim C8: when the three earlier stages succeed and produce the record
x3, the yielded pair is exactly the target split of x3: with no configured
target name, or with the key absent from x3, the target is the absent
marker and the features are x3 unchanged; otherwise the target is the value
removed at that key and the features mapping no longer contains the key. -/
theorem claim8_target_split (cfg : Config) (sp : Val → String → Option Val)
    (x x1 x2 x3 : Raw) (h1 : dropStage cfg x = .ok x1)
    (h2 : convStage cfg x1 = .ok x2) (h3 : parseStage cfg sp x2 = .ok x3)
    (hnd : (x3.map Prod.fst).Nodup) :
    transform cfg sp x = .ok (splitTarget cfg x3)
    ∧ splitTarget cfg x3 =
        (match cfg.target_name with
         | none => (x3, none)
         | some t =>
           match lookupV x3 t with
           | none => (x3, none)
           | some v => ((popKey x3 t).1, some v))
    ∧ (cfg.target_name.all
        fun t => (lookupV (splitTarget cfg x3).1 t).isNone) = true := by
  refine ⟨by simp [transform, h1, h2, h3], ?_, ?_⟩
  · cases ht : cfg.target_name with
    | none => simp [splitTarget, ht]
    | some t =>
      cases hl : lookupV x3 t with
      | none => simp [splitTarget, ht, hl, popKey_of_absent x3 t hl]
      | some v =>
        simp only [splitTarget, ht]
        have hsnd := popKey_snd_of_mem x3 t v hl
        rcases hp : popKey x3 t with ⟨a, b⟩
        rw [hp] at hsnd
        simp only at hsnd
        simp [hsnd, hl, hp]
  · cases ht : cfg.target_name with
    | none => simp [ht, Option.all]
    | some t =>
      have hnone : lookupV (splitTarget cfg x3).1 t = none := by
        simp only [splitTarget, ht]
        exact lookupV_popKey_self x3 t hnd
      simp [ht, Option.all, hnone]

/-- Witness for C8 on a record with a present target field "rating". -/
theorem claim8_witness :
    transform cfgTargetPlain spId xRow =
        .ok (splitTarget cfgTargetPlain xRow)
    ∧ splitTarget cfgTargetPlain xRow =
        (match cfgTargetPlain.target_name with
         | none => (xRow, none)
         | some t =>
           match lookupV xRow t with
           | none => (xRow, none)
           | some v => ((popKey xRow t).1, some v))
    ∧ (cfgTargetPlain.target_name.all
        fun t => (lookupV (splitTarget cfgTargetPlain xRow).1 t).isNone) =
        true :=
  claim8_target_split cfgTargetPlain spId xRow xRow xRow xRow rfl rfl rfl
    (by decide)

/-- Claim C9: a field name that is both dropped and converted (or both
dropped and date-parsed) makes the first accepted record raise a KeyError
for that name before anything is yielded: the drop stage removes the key,
and the later stage's item lookup then fails. -/
theorem claim9_drop_conflicts_with_later_stage (cfg : Config)
    (sp : Val → String → Option Val) (i : String) (x x1 : Raw)
    (rest : List Raw) (hnd : (x.map Prod.fst).Nodup) (hi : i ∈ cfg.drop)
    (hdrop : dropAll cfg.drop x = .ok x1)
    (hcase :
      (∃ pre tf post x2, cfg.converters = some (pre ++ (i, tf) :: post)
        ∧ convertAll pre x1 = Except.ok x2)
      ∨ (∃ x2 pre fmt post x3, convStage cfg x1 = Except.ok x2
        ∧ cfg.parse_dates = some (pre ++ (i, fmt) :: post)
        ∧ parseAll sp pre x2 = Except.ok x3)) :
    transform cfg sp x = .error (.keyError i)
    ∧ runPipeline cfg sp (x :: rest) = ([], some (.keyError i)) := by
  have hds : dropStage cfg x = .ok x1 := by
    rw [dropStage_of_mem cfg x i hi]
    exact hdrop
  have hx1 : lookupV x1 i = none :=
    dropAll_lookup_none cfg.drop x x1 i hnd hi hdrop
  have htr : transform cfg sp x = .error (.keyError i) := by
    rcases hcase with ⟨pre, tf, post, x2, hcv, hpre⟩ |
      ⟨x2, pre, fmt, post, x3, hcv, hpd, hpre⟩
    · have hx2 : lookupV x2 i = none := by
        rw [lookupV_eq_none_iff] at hx1 ⊢
        rw [convertAll_keys pre x1 x2 hpre]
        exact hx1
      have hconv : convStage cfg x1 = .error (.keyError i) := by
        simp only [convStage, hcv]
        rw [convertAll_append, hpre]
        simp [convertAll, hx2]
      simp [transform, hds, hconv]
    · have hx2 : lookupV x2 i = none := by
        rw [lookupV_eq_none_iff] at hx1 ⊢
        rw [convStage_keys cfg x1 x2 hcv]
        exact hx1
      have hx3 : lookupV x3 i = none := by
        rw [lookupV_eq_none_iff] at hx2 ⊢
        rw [parseAll_keys sp pre x2 x3 hpre]
        exact hx2
      have hparse : parseStage cfg sp x2 = .error (.keyError i) := by
        simp only [parseStage, hpd]
        rw [parseAll_append, hpre]
        simp [parseAll, hx3]
      simp [transform, hds, hcv, hparse]
  exact ⟨htr, by simp [runPipeline, htr]⟩

/-- Witness for C9: "rating" is both dropped and converted; the first
accepted record raises KeyError "rating" and nothing is yielded. -/
theorem claim9_witness :
    transform cfgDropConv spId
        [("name", Val.vstr "n"), ("rating", Val.vstr "9.5")] =
      .error (.keyError "rating")
    ∧ runPipeline cfgDropConv spId
        ([("name", Val.vstr "n"), ("rating", Val.vstr "9.5")] :: []) =
      ([], some (.keyError "rating")) :=
  claim9_drop_conflicts_with_later_stage cfgDropConv spId "rating"
    [("name", Val.vstr "n"), ("rating", Val.vstr "9.5")]
    [("name", Val.vstr "n")] [] (by decide) (by decide) rfl
    (Or.inl ⟨[], convFloat, [], [("name", Val.vstr "n")], rfl, rfl⟩)

/-- Claim C1: the per-record transform is the composition, in this fixed
order, of drop, convert, parse-dates and target split; in particular when a
converter is registered for the target field name — the field not being
dropped or date-parsed — the emitted target value is that converter applied
to the field's raw string value. -/
theorem claim1_converter_reaches_target (cfg : Config)
    (sp : Val → String → Option Val) (x : Raw) (t : String)
    (cnv : Val → Option Val) (s : String)
    (cs : List (String × (Val → Option Val))) (feats : Raw) (y : Option Val)
    (h1 : cfg.target_name = some t) (h2 : cfg.converters = some cs)
    (h3 : (t, cnv) ∈ cs) (h4 : (cs.map Prod.fst).Nodup)
    (h5 : t ∉ cfg.drop)
    (h6 : ∀ ps, cfg.parse_dates = some ps → t ∉ ps.map Prod.fst)
    (h7 : lookupV x t = some (.vstr s))
    (h8 : transform cfg sp x = .ok (feats, y)) :
    transform cfg sp x =
      (dropStage cfg x >>= fun x1 =>
        convStage cfg x1 >>= fun x2 =>
          parseStage cfg sp x2 >>= fun x3 =>
            Except.ok (splitTarget cfg x3))
    ∧ y = cnv (.vstr s) := by
  refine ⟨transform_eq_bind_chain cfg sp x, ?_⟩
  cases hd : dropStage cfg x with
  | error e => simp [transform, hd] at h8
  | ok x1 =>
    cases hc : convStage cfg x1 with
    | error e => simp [transform, hd, hc] at h8
    | ok x2 =>
      cases hp : parseStage cfg sp x2 with
      | error e => simp [transform, hd, hc, hp] at h8
      | ok x3 =>
        simp only [transform, hd, hc, hp] at h8
        injection h8 with h8
        have hx1 : lookupV x1 t = some (.vstr s) := by
          rw [dropStage_lookup_ne cfg x x1 t h5 hd]
          exact h7
        have hcs : convStage cfg x1 = convertAll cs x1 := by
          simp [convStage, h2]
        rw [hcs] at hc
        obtain ⟨w, hw, hx2⟩ :=
          convertAll_target cs x1 x2 t cnv (.vstr s) h3 h4 hx1 hc
        have hx3 : lookupV x3 t = some w := by
          cases hpd : cfg.parse_dates with
          | none =>
            simp only [parseStage, hpd] at hp
            injection hp with hp
            rw [← hp]
            exact hx2
          | some ps =>
            simp only [parseStage, hpd] at hp
            rw [parseAll_lookup_ne sp ps x2 x3 t (h6 ps hpd) hp]
            exact hx2
        have hy : y = some w := by
          have hps := congrArg Prod.snd h8
          simp only [splitTarget, h1] at hps
          rw [popKey_snd_of_mem x3 t w hx3] at hps
          exact hps.symm
        rw [hy, ← hw]

/-- Witness for C1: the converter on the target field "rating" turns the
raw string "9.5" into the numeric 19/2, which is exactly the emitted
target. -/
theorem claim1_witness :
    transform cfgTarget spId xRow =
      (dropStage cfgTarget xRow >>= fun x1 =>
        convStage cfgTarget x1 >>= fun x2 =>
          parseStage cfgTarget spId x2 >>= fun x3 =>
            Except.ok (splitTarget cfgTarget x3))
    ∧ (some (Val.vnum (mkRat 19 2)) : Option Val) =
        convFloat (Val.vstr "9.5") :=
  claim1_converter_reaches_target cfgTarget spId xRow "rating" convFloat
    "9.5" [("rating", convFloat)] [("name", Val.vstr "Planet")]
    (some (Val.vnum (mkRat 19 2))) rfl rfl (List.mem_cons_self _ _)
    (by decide) (by decide) (fun ps h => by simp [cfgTarget] at h) rfl rfl

end CremeCsv
